import Mathlib

/-!
Verification development for the sogserver repository.

The repository contains a single C++ source file, `src/main.cpp`, which
bootstraps an SDL based GUI application: it initializes the SDL video
subsystem, constructs an `SdlApplication`, builds a root widget with a
`LinearLayout`, runs the blocking event loop, catches `SdlException` at the
process boundary, and finally releases fonts and shuts the TTF/SDL libraries
down before returning.  The widget, layout and font subsystems themselves live
in external libraries (`sdl_core`, `sdl_graphic`, `sdl_app_core`); where a
claim depends on them, the corresponding definitions below are modelled from
the design specification and say so in their doc comment.

All numeric layout quantities are embedded as rationals (the C++ code uses
`float`; every value exercised here is a small integer, exactly representable
in both).
-/

namespace Sog

/-- Exit code `EXIT_SUCCESS` returned at the end of `main` (src/main.cpp line 66). -/
def EXIT_SUCCESS : Nat := 0

/-- Exit code `EXIT_FAILURE` returned when `SDL_Init` fails (src/main.cpp line 15). -/
def EXIT_FAILURE : Nat := 1

/-- Outcome of constructing the `SdlApplication` inside the try block of `main`.
`initError` stands for an `InitializationError` (an `SdlException` per the
specification) thrown when the backend surface cannot be created; `otherExc`
stands for an exception that does not derive from `sdl::core::SdlException`. -/
inductive CtorResult where
  | ok
  | initError (msg : String)
  | otherExc
deriving DecidableEq

/-- Outcome of `app->run()` when it is reached: a clean `Stopped` transition,
an escaping `SdlException`, or an exception of some other type. -/
inductive RunResult where
  | stopped
  | sdlExc (msg : String)
  | otherExc
deriving DecidableEq

/-- The environment a single execution of `main` runs against: whether
`SDL_Init` succeeds, how construction and `run` behave, and what
`TTF_WasInit()` / `SDL_WasInit(0u)` report at teardown time. -/
structure Env where
  sdlInitOk : Bool
  ctorResult : CtorResult
  runResult : RunResult
  ttfWasInit : Bool
  sdlWasInit : Bool
deriving DecidableEq

/-- Observable actions performed by `main` besides returning. -/
inductive Action where
  | logError (msg : String)
  | releaseFonts
  | ttfQuit
  | sdlQuit
deriving DecidableEq

/-- How the process ends: with an exit code, or terminated abnormally by an
exception that no handler catches (the C++ runtime then calls
`std::terminate`, which does not produce a normal exit code). -/
inductive ExitOutcome where
  | exitCode (n : Nat)
  | terminated
deriving DecidableEq

/-- Trace of one execution of `main`: the actions performed in order, whether
`app->run()` was entered, and how the process ended. -/
structure MainTrace where
  actions : List Action
  runEntered : Bool
  result : ExitOutcome
deriving DecidableEq

/-- The teardown sequence after the try/catch block of `main`
(src/main.cpp lines 54-63): release fonts unconditionally, then
`TTF_Quit()` only if `TTF_WasInit()`, then `SDL_Quit()` only if
`SDL_WasInit(0u)`. -/
def teardown (e : Env) : List Action :=
  Action.releaseFonts ::
    ((if e.ttfWasInit then [Action.ttfQuit] else [])
      ++ (if e.sdlWasInit then [Action.sdlQuit] else []))

/-- Shallow embedding of `main` (src/main.cpp).  If `SDL_Init` fails, log and
return `EXIT_FAILURE`.  Otherwise run the try block: construction failure with
an `SdlException` (in particular `InitializationError`) skips `run()` and is
caught by the single `catch (const sdl::core::SdlException&)` handler, which
logs it; an `SdlException` escaping `run()` is caught and logged the same way;
an exception of any other type is not caught and terminates the process before
any teardown.  On every non-terminating path past `SDL_Init` the teardown
sequence runs and `main` returns `EXIT_SUCCESS`. -/
def mainModel (e : Env) : MainTrace :=
  if e.sdlInitOk = false then
    { actions := [Action.logError "could not initialize sdl video mode"],
      runEntered := false,
      result := ExitOutcome.exitCode EXIT_FAILURE }
  else
    match e.ctorResult with
    | CtorResult.initError msg =>
        { actions := Action.logError msg :: teardown e,
          runEntered := false,
          result := ExitOutcome.exitCode EXIT_SUCCESS }
    | CtorResult.otherExc =>
        { actions := [],
          runEntered := false,
          result := ExitOutcome.terminated }
    | CtorResult.ok =>
        match e.runResult with
        | RunResult.stopped =>
            { actions := teardown e,
              runEntered := true,
              result := ExitOutcome.exitCode EXIT_SUCCESS }
        | RunResult.sdlExc msg =>
            { actions := Action.logError msg :: teardown e,
              runEntered := true,
              result := ExitOutcome.exitCode EXIT_SUCCESS }
        | RunResult.otherExc =>
            { actions := [],
              runEntered := true,
              result := ExitOutcome.terminated }

/-- A geometry box `{x, y, w, h}` in parent relative coordinates, embedded
with rational components (the C++ `Boxf` uses floats). -/
structure Box where
  x : Rat
  y : Rat
  w : Rat
  h : Rat
deriving DecidableEq

/-- Who wrote a geometry box of a widget: the layout pass of the parent, the
Application resizing the root, or an explicit box argument supplied to the
widget constructor by application code. -/
inductive GeometrySource where
  | parentLayout
  | appResize
  | constructorArg
deriving DecidableEq

/-- One geometry write: which widget, who wrote it, and the box written. -/
structure GeometryWrite where
  widget : String
  source : GeometrySource
  box : Box
deriving DecidableEq

/-- The geometry writes performed by the bootstrap code in `src/main.cpp`:
the root widget is constructed (lines 29-35) with the explicit box
`Boxf(320.0f, 240.0f, 600.0f, 440.0f)` passed as a constructor argument by
`main` itself.  No other geometry assignment appears in the file. -/
def mainGeometryWrites : List GeometryWrite :=
  [⟨"root_widget", GeometrySource.constructorArg, ⟨320, 240, 600, 440⟩⟩]

/-! ## Linear layout

The `sdl::graphic::LinearLayout` implementation lives in the external
`sdl_graphic` library; only its constructor call appears in `src/main.cpp`
(lines 37-42).  The definitions below are modelled from the specification,
section 4.2. -/

/-- Layout direction of a `LinearLayout` (the value used in `main` is
`Direction::Horizontal`). -/
inductive Direction where
  | Horizontal
  | Vertical
deriving DecidableEq

/-- Modelled from the spec: the main axis size hint of a child — fixed,
stretch, or minimum. -/
inductive SizeHint where
  | fixed (v : Rat)
  | stretch
  | minimum (v : Rat)
deriving DecidableEq

/-- Configuration of a `LinearLayout`: direction, outer margin and
inter-child spacing.  The spec describes the manager as a stateless
transform, so this is all the state it has. -/
structure LinearLayout where
  direction : Direction
  margin : Rat
  spacing : Rat
deriving DecidableEq

/-- Clamp a rational at zero.  Modelled from the spec: children are clamped
to zero rather than negative when the container is too small. -/
def clamp0 (v : Rat) : Rat :=
  if v < 0 then 0 else v

/-- Modelled from the spec: the interior of a container box after reserving
`margin` on all four sides, never letting an extent go negative. -/
def interior (margin : Rat) (c : Box) : Box :=
  ⟨c.x + margin, c.y + margin, clamp0 (c.w - 2 * margin), clamp0 (c.h - 2 * margin)⟩

/-- Main axis space a hint is granted before stretch sharing: fixed and
minimum children take their stated size, stretch children take none. -/
def hintBase : SizeHint → Rat
  | SizeHint.fixed v => v
  | SizeHint.minimum v => v
  | SizeHint.stretch => 0

/-- Number of stretch children among the hints. -/
def countStretch (hs : List SizeHint) : Nat :=
  (hs.filter fun h => h = SizeHint.stretch).length

/-- Modelled from the spec: the main axis extent each hint receives, given
the equal share granted to stretch children.  Extents are clamped at zero. -/
def hintExtent (share : Rat) : SizeHint → Rat
  | SizeHint.fixed v => clamp0 v
  | SizeHint.minimum v => clamp0 v
  | SizeHint.stretch => share

/-- Lay a list of main axis extents out inside the interior box, starting at
main axis position `pos` and inserting `spacing` between consecutive
children; every child receives the full cross axis extent of the interior. -/
def placeMain (dir : Direction) (spacing : Rat) (inner : Box) :
    Rat → List Rat → List Box
  | _, [] => []
  | pos, v :: vs =>
      (match dir with
        | Direction.Horizontal => Box.mk pos inner.y v inner.h
        | Direction.Vertical => Box.mk inner.x pos inner.w v)
        :: placeMain dir spacing inner (pos + v + spacing) vs

/-- The list of main axis extents granted to the hints by a layout `l` inside
container `c`: after fixed and minimum children are satisfied, stretch
children share the remaining main axis space equally, clamped at zero. -/
def extents (l : LinearLayout) (c : Box) (hs : List SizeHint) : List Rat :=
  let inner := interior l.margin c
  let avail : Rat :=
    match l.direction with
    | Direction.Horizontal => inner.w
    | Direction.Vertical => inner.h
  let spacingTotal : Rat := l.spacing * ((hs.length - 1 : Nat) : Rat)
  let nStretch := countStretch hs
  let share : Rat :=
    if nStretch = 0 then 0
    else clamp0 ((avail - (hs.map hintBase).sum - spacingTotal) / (nStretch : Rat))
  hs.map (hintExtent share)

/-- Modelled from the spec, section 4.2: `arrange(containerBox, children)`.
Reserve `margin` on all four sides of the container, then partition the
interior along the configured direction among the children in order,
inserting `spacing` between consecutive children; each child receives the
full cross axis extent of the interior and a main axis extent determined by
its size hint. -/
def arrange (l : LinearLayout) (c : Box) (hs : List SizeHint) : List Box :=
  let inner := interior l.margin c
  let start : Rat :=
    match l.direction with
    | Direction.Horizontal => inner.x
    | Direction.Vertical => inner.y
  placeMain l.direction l.spacing inner start (extents l c hs)

/-- Main axis start of a box. -/
def Box.mainStart (dir : Direction) (b : Box) : Rat :=
  match dir with
  | Direction.Horizontal => b.x
  | Direction.Vertical => b.y

/-- Main axis extent of a box. -/
def Box.mainExtent (dir : Direction) (b : Box) : Rat :=
  match dir with
  | Direction.Horizontal => b.w
  | Direction.Vertical => b.h

/-- Cross axis start of a box. -/
def Box.crossStart (dir : Direction) (b : Box) : Rat :=
  match dir with
  | Direction.Horizontal => b.y
  | Direction.Vertical => b.x

/-- Cross axis extent of a box. -/
def Box.crossExtent (dir : Direction) (b : Box) : Rat :=
  match dir with
  | Direction.Horizontal => b.h
  | Direction.Vertical => b.w

/-! ## Widget tree and dirty propagation

The `sdl::core::SdlWidget` implementation lives in the external `sdl_core`
library; `src/main.cpp` only constructs the root widget.  The tree model
below is modelled from the specification, sections 3 and 4.1: each widget
holds a dirty flag and an ordered list of owned children, and `markDirty`
propagates upward through the parent back-reference, so marking the widget
at a path from the root marks every node along that path. -/

/-- A widget tree: a dirty flag and the ordered children.  Identity and
paint state are irrelevant to the dirty-propagation claims and omitted. -/
inductive WidgetTree where
  | node (dirty : Bool) (children : List WidgetTree)

/-- The dirty flag of the root node of a tree. -/
def WidgetTree.dirty : WidgetTree → Bool
  | WidgetTree.node d _ => d

/-- The children of the root node of a tree. -/
def WidgetTree.children : WidgetTree → List WidgetTree
  | WidgetTree.node _ cs => cs

mutual

/-- Modelled from the spec: marking the widget at path `p` dirty marks it and,
through the parent back-reference, every ancestor on the way — so every node
along the path from the root is marked. -/
def markDirty : WidgetTree → List Nat → WidgetTree
  | WidgetTree.node _ cs, [] => WidgetTree.node true cs
  | WidgetTree.node _ cs, i :: p => WidgetTree.node true (markDirtyChildren cs i p)

/-- Mark the `i`-th child along the remaining path, leaving siblings alone. -/
def markDirtyChildren : List WidgetTree → Nat → List Nat → List WidgetTree
  | [], _, _ => []
  | c :: cs, 0, p => markDirty c p :: cs
  | c :: cs, Nat.succ i, p => c :: markDirtyChildren cs i p

end

mutual

/-- The node reached by following a path of child indices from the root. -/
def nodeAt : WidgetTree → List Nat → Option WidgetTree
  | t, [] => some t
  | WidgetTree.node _ cs, i :: p => nodeAtChildren cs i p

/-- Resolve the `i`-th child and continue along the path. -/
def nodeAtChildren : List WidgetTree → Nat → List Nat → Option WidgetTree
  | [], _, _ => none
  | c :: _, 0, p => nodeAt c p
  | _ :: cs, Nat.succ i, p => nodeAtChildren cs i p

end

mutual

/-- Modelled from the spec: a completed layout-plus-render pass visits every
widget top-down and clears its dirty flag. -/
def layoutRenderPass : WidgetTree → WidgetTree
  | WidgetTree.node _ cs => WidgetTree.node false (passChildren cs)

/-- Run the pass over every child in order. -/
def passChildren : List WidgetTree → List WidgetTree
  | [] => []
  | c :: cs => layoutRenderPass c :: passChildren cs

end

mutual

/-- Whether every widget of the tree has a cleared dirty flag. -/
def allClean : WidgetTree → Bool
  | WidgetTree.node d cs => !d && allCleanChildren cs

/-- Whether every widget of a forest has a cleared dirty flag. -/
def allCleanChildren : List WidgetTree → Bool
  | [] => true
  | c :: cs => allClean c && allCleanChildren cs

end

/-! ## Font factory

`sdl::graphic::FontFactory` lives in the external `sdl_graphic` library;
`src/main.cpp` only calls `FontFactory::getInstance().releaseFonts()`
(line 55).  The cache model below is modelled from the specification,
section 4.3: `acquire` loads and caches on miss and bumps a reference count
on hit; `releaseFonts` (the release-all call) drops every cached entry
regardless of outstanding reference counts. -/

/-- A resource key: font name and size. -/
structure FontKey where
  name : String
  size : Nat
deriving DecidableEq

/-- A cached entry: the key, the identity of the issued handle, and the
reference count of the entry. -/
structure FontEntry where
  key : FontKey
  handle : Nat
  refCount : Nat
deriving DecidableEq

/-- The state of the font factory: the cached entries, the next fresh handle
identity, and how many loads were issued against the backend. -/
structure FontFactory where
  entries : List FontEntry
  nextHandle : Nat
  backendLoads : Nat
deriving DecidableEq

/-- Modelled from the spec: `acquire(key)` returns the cached handle and
increments the reference count on a hit; on a miss it loads the resource from
the backend, caches it with reference count 1, and returns a fresh handle. -/
def FontFactory.acquire (f : FontFactory) (k : FontKey) : Nat × FontFactory :=
  match f.entries.find? (fun e => e.key = k) with
  | some e =>
      (e.handle,
        { f with
          entries := f.entries.map fun e2 =>
            if e2.key = k then { e2 with refCount := e2.refCount + 1 } else e2 })
  | none =>
      (f.nextHandle,
        { entries := f.entries ++ [⟨k, f.nextHandle, 1⟩],
          nextHandle := f.nextHandle + 1,
          backendLoads := f.backendLoads + 1 })

/-- Modelled from the spec: the release-all call (`releaseFonts` in
`src/main.cpp`) drops every cached entry regardless of reference counts. -/
def FontFactory.releaseFonts (f : FontFactory) : FontFactory :=
  { f with entries := [] }

/-- The reference count the factory currently holds for a key, if cached. -/
def FontFactory.refCountOf (f : FontFactory) (k : FontKey) : Option Nat :=
  (f.entries.find? (fun e => e.key = k)).map FontEntry.refCount

/-! ## Helper lemmas -/

/-- Clamping at zero yields a nonnegative value. -/
theorem clamp0_nonneg (v : Rat) : 0 ≤ clamp0 v := by
  unfold clamp0
  split
  · exact le_refl 0
  · linarith [not_lt.mp (by assumption : ¬ v < 0)]

/-- The clamped value dominates nothing below zero: it equals the input when
the input is nonnegative. -/
theorem clamp0_of_nonneg {v : Rat} (h : 0 ≤ v) : clamp0 v = v := by
  unfold clamp0
  split
  · linarith
  · rfl

/-- `extents` yields one extent per hint. -/
theorem extents_length (l : LinearLayout) (c : Box) (hs : List SizeHint) :
    (extents l c hs).length = hs.length := by
  simp [extents]

/-- Every extent granted by the layout is nonnegative. -/
theorem extents_nonneg (l : LinearLayout) (c : Box) (hs : List SizeHint) :
    ∀ v ∈ extents l c hs, 0 ≤ v := by
  intro v hv
  simp only [extents, List.mem_map] at hv
  obtain ⟨h, -, rfl⟩ := hv
  cases h with
  | fixed w => exact clamp0_nonneg w
  | minimum w => exact clamp0_nonneg w
  | stretch =>
      simp only [hintExtent]
      split
      · exact le_refl 0
      · exact clamp0_nonneg _

/-- The interior box has nonnegative extents on both axes. -/
theorem interior_nonneg (m : Rat) (c : Box) :
    0 ≤ (interior m c).w ∧ 0 ≤ (interior m c).h :=
  ⟨clamp0_nonneg _, clamp0_nonneg _⟩

/-- `placeMain` yields one box per extent. -/
theorem placeMain_length (dir : Direction) (sp : Rat) (inner : Box) :
    ∀ (vs : List Rat) (pos : Rat), (placeMain dir sp inner pos vs).length = vs.length := by
  intro vs
  induction vs with
  | nil => intro pos; simp [placeMain]
  | cons v vs ih => intro pos; simp [placeMain, ih]

/-- Every box placed by `placeMain` takes its main axis extent from the input
list and copies the cross axis of the interior. -/
theorem placeMain_mem (dir : Direction) (sp : Rat) (inner : Box) :
    ∀ (vs : List Rat) (pos : Rat) (b : Box), b ∈ placeMain dir sp inner pos vs →
      Box.mainExtent dir b ∈ vs
      ∧ Box.crossStart dir b = Box.crossStart dir inner
      ∧ Box.crossExtent dir b = Box.crossExtent dir inner := by
  intro vs
  induction vs with
  | nil => intro pos b hb; simp [placeMain] at hb
  | cons v vs ih =>
      intro pos b hb
      simp only [placeMain, List.mem_cons] at hb
      rcases hb with hb | hb
      · subst hb
        cases dir <;>
          simp [Box.mainExtent, Box.crossStart, Box.crossExtent]
      · obtain ⟨h1, h2, h3⟩ := ih _ b hb
        exact ⟨List.mem_cons_of_mem _ h1, h2, h3⟩

/-- Index formula for `placeMain`: the box at index `i` starts at the initial
position plus the extents laid out before it plus `i` spacings, and its main
axis extent is the `i`-th input extent. -/
theorem placeMain_get (dir : Direction) (sp : Rat) (inner : Box) :
    ∀ (vs : List Rat) (pos : Rat) (i : Nat) (h : i < vs.length),
      Box.mainStart dir ((placeMain dir sp inner pos vs).get
          ⟨i, by rw [placeMain_length]; exact h⟩)
        = pos + (vs.take i).sum + sp * (i : Rat)
      ∧ Box.mainExtent dir ((placeMain dir sp inner pos vs).get
          ⟨i, by rw [placeMain_length]; exact h⟩)
        = vs.get ⟨i, h⟩ := by
  intro vs
  induction vs with
  | nil => intro pos i h; simp at h
  | cons v vs ih =>
      intro pos i h
      cases i with
      | zero =>
          constructor
          · cases dir <;> simp [placeMain, Box.mainStart]
          · cases dir <;> simp [placeMain, Box.mainExtent]
      | succ i =>
          have hlt : i < vs.length := by simpa using h
          obtain ⟨h1, h2⟩ := ih (pos + v + sp) i hlt
          constructor
          · have hget : (placeMain dir sp inner pos (v :: vs)).get
                ⟨i + 1, by rw [placeMain_length]; exact h⟩
                = (placeMain dir sp inner (pos + v + sp) vs).get
                  ⟨i, by rw [placeMain_length]; exact hlt⟩ := by
              simp [placeMain]
            rw [hget, h1, List.take_succ_cons]
            simp only [List.sum_cons]
            push_cast
            ring
          · have hget : (placeMain dir sp inner pos (v :: vs)).get
                ⟨i + 1, by rw [placeMain_length]; exact h⟩
                = (placeMain dir sp inner (pos + v + sp) vs).get
                  ⟨i, by rw [placeMain_length]; exact hlt⟩ := by
              simp [placeMain]
            rw [hget, h2]
            simp

/-- Partial sums of a list of nonnegative rationals are monotone in the
prefix length. -/
theorem sum_take_mono {vs : List Rat} (hnn : ∀ v ∈ vs, 0 ≤ v) {i j : Nat}
    (hij : i ≤ j) : (vs.take i).sum ≤ (vs.take j).sum := by
  have hsub : (vs.take i).Sublist (vs.take j) := by
    have : vs.take i = (vs.take j).take i := by
      rw [List.take_take, Nat.min_eq_left hij]
    rw [this]
    exact List.take_sublist i (vs.take j)
  refine hsub.sum_le_sum ?_
  intro a ha
  exact hnn a ((List.take_sublist j vs).mem ha)

/-- Marking any path dirty marks the root of the tree. -/
theorem markDirty_root_dirty (t : WidgetTree) (p : List Nat) :
    (markDirty t p).dirty = true := by
  cases t with
  | node d cs =>
      cases p with
      | nil => simp [markDirty, WidgetTree.dirty]
      | cons i q => simp [markDirty, WidgetTree.dirty]

/-- Marking the widget at path `p` dirty marks every node on the path from
the root: any valid ancestor path `q` of `p` now leads to a dirty node. -/
theorem nodeAt_markDirty_dirty :
    ∀ (q p : List Nat) (t : WidgetTree), (∃ r, q ++ r = p) →
      (nodeAt t q).isSome = true →
      ∃ u, nodeAt (markDirty t p) q = some u ∧ u.dirty = true := by
  intro q
  induction q with
  | nil =>
      intro p t _ _
      exact ⟨markDirty t p, by simp [nodeAt], markDirty_root_dirty t p⟩
  | cons i q ih =>
      intro p t hpre hvalid
      obtain ⟨r, hr⟩ := hpre
      subst hr
      cases t with
      | node d cs =>
          simp only [List.cons_append, markDirty, nodeAt]
          simp only [nodeAt] at hvalid
          clear d
          induction cs generalizing i with
          | nil => simp [nodeAtChildren] at hvalid
          | cons c cs ihc =>
              cases i with
              | zero =>
                  simp only [markDirtyChildren, nodeAtChildren]
                  simp only [nodeAtChildren] at hvalid
                  exact ih (q ++ r) c ⟨r, rfl⟩ hvalid
              | succ i =>
                  simp only [markDirtyChildren, nodeAtChildren]
                  simp only [nodeAtChildren] at hvalid
                  exact ihc i hvalid

/-- Structural induction principle for widget trees: to prove a property of
every tree it suffices to prove it for a node assuming it for the children. -/
theorem widgetTree_ind {P : WidgetTree → Prop}
    (h : ∀ d cs, (∀ c ∈ cs, P c) → P (WidgetTree.node d cs)) : ∀ t, P t := by
  suffices hn : ∀ (n : Nat) (t : WidgetTree), sizeOf t ≤ n → P t by
    intro t
    exact hn (sizeOf t) t le_rfl
  intro n
  induction n with
  | zero =>
      intro t ht
      cases t with
      | node d cs =>
          simp only [WidgetTree.node.sizeOf_spec] at ht
          omega
  | succ n ihn =>
      intro t ht
      cases t with
      | node d cs =>
          refine h d cs fun c hc => ihn c ?_
          have h1 := List.sizeOf_lt_of_mem hc
          simp only [WidgetTree.node.sizeOf_spec] at ht
          omega

/-- A completed layout-plus-render pass leaves every widget of the tree with
a cleared dirty flag. -/
theorem allClean_layoutRenderPass : ∀ t, allClean (layoutRenderPass t) = true := by
  refine widgetTree_ind ?_
  intro d cs ih
  have hcs : allCleanChildren (passChildren cs) = true := by
    induction cs with
    | nil => simp [passChildren, allCleanChildren]
    | cons c cs ihc =>
        simp only [passChildren, allCleanChildren, Bool.and_eq_true]
        exact ⟨ih c (List.mem_cons_self c cs),
          ihc fun x hx => ih x (List.mem_cons_of_mem _ hx)⟩
  simp [layoutRenderPass, allClean, hcs]

/-- `arrange` unfolded to its placement form: margin reserved, children laid
out from the interior start along the configured direction. -/
theorem arrange_eq (l : LinearLayout) (c : Box) (hs : List SizeHint) :
    arrange l c hs
      = placeMain l.direction l.spacing (interior l.margin c)
        (Box.mainStart l.direction (interior l.margin c)) (extents l c hs) := by
  cases h : l.direction <;> simp [arrange, Box.mainStart, h]

/-- Index formula for `placeMain`, stated with the total `getD` accessor. -/
theorem placeMain_getD (dir : Direction) (sp : Rat) (inner : Box)
    (vs : List Rat) (pos : Rat) (i : Nat) (h : i < vs.length) :
    Box.mainStart dir ((placeMain dir sp inner pos vs).getD i ⟨0, 0, 0, 0⟩)
      = pos + (vs.take i).sum + sp * (i : Rat)
    ∧ Box.mainExtent dir ((placeMain dir sp inner pos vs).getD i ⟨0, 0, 0, 0⟩)
      = vs.getD i 0 := by
  have hlen : i < (placeMain dir sp inner pos vs).length := by
    rw [placeMain_length]
    exact h
  obtain ⟨h1, h2⟩ := placeMain_get dir sp inner vs pos i h
  have hg : (placeMain dir sp inner pos vs).getD i ⟨0, 0, 0, 0⟩
      = (placeMain dir sp inner pos vs).get ⟨i, hlen⟩ := by
    rw [List.getD_eq_getElem _ _ hlen, List.get_eq_getElem]
  have hd : vs.getD i 0 = vs.get ⟨i, h⟩ := by
    rw [List.getD_eq_getElem _ _ h, List.get_eq_getElem]
  rw [hg, hd]
  exact ⟨h1, h2⟩

/-! ## Claim theorems -/

/-- Claim C1, counterexample: when `SDL_Init` fails, `main` returns
`EXIT_FAILURE` = 1 (src/main.cpp line 15), so not every execution of the
program yields exit code 0. -/
theorem mainExitCode_counterexample :
    (mainModel ⟨false, CtorResult.ok, RunResult.stopped, false, false⟩).result
      = ExitOutcome.exitCode 1
    ∧ ExitOutcome.exitCode 1 ≠ ExitOutcome.exitCode 0 := by
  constructor
  · rfl
  · simp

/-- Claim C1 as amended: the exit code is 0 on a clean run and on a caught
`SdlException`, provided `SDL_Init` succeeded; when `SDL_Init` fails the exit
code is `EXIT_FAILURE` = 1 instead. -/
theorem mainExitCode_amended (e : Env)
    (hc : e.ctorResult ≠ CtorResult.otherExc)
    (hr : e.ctorResult = CtorResult.ok → e.runResult ≠ RunResult.otherExc) :
    (e.sdlInitOk = true → (mainModel e).result = ExitOutcome.exitCode EXIT_SUCCESS)
    ∧ (e.sdlInitOk = false → (mainModel e).result = ExitOutcome.exitCode EXIT_FAILURE) := by
  constructor
  · intro hsdl
    rcases hcc : e.ctorResult with _ | m | _
    · rcases hrr : e.runResult with _ | m | _
      · simp [mainModel, hsdl, hcc, hrr]
      · simp [mainModel, hsdl, hcc, hrr]
      · exact absurd hrr (hr hcc)
    · simp [mainModel, hsdl, hcc]
    · exact absurd hcc hc
  · intro hsdl
    simp [mainModel, hsdl]

/-- Claim C1, witness for the amended theorem at a concrete execution. -/
theorem mainExitCode_amended_witness :
    (mainModel ⟨true, CtorResult.ok, RunResult.stopped, true, true⟩).result
      = ExitOutcome.exitCode EXIT_SUCCESS :=
  (mainExitCode_amended ⟨true, CtorResult.ok, RunResult.stopped, true, true⟩
    (by simp) (fun _ => by simp)).1 rfl

/-- Claim C2, counterexample: an exception that does not derive from
`sdl::core::SdlException` is not matched by the single catch clause of `main`
(src/main.cpp line 50); it escapes without being logged, no resources are
released, and the process is terminated abnormally instead of exiting 0. -/
theorem unknownException_escapes :
    (mainModel ⟨true, CtorResult.ok, RunResult.otherExc, true, true⟩).result
      = ExitOutcome.terminated
    ∧ (mainModel ⟨true, CtorResult.ok, RunResult.otherExc, true, true⟩).actions = []
    ∧ ExitOutcome.terminated ≠ ExitOutcome.exitCode 0 := by
  refine ⟨rfl, rfl, ?_⟩
  simp

/-- Claim C2 as amended: every `SdlException` that reaches the process
boundary is caught exactly once by the handler of `main`, logged, followed by
the unconditional font release and the conditional library shutdown, and the
process exits 0; exceptions of other types are not caught. -/
theorem sdlException_caught_amended (e : Env) (msg : String)
    (hsdl : e.sdlInitOk = true)
    (h : e.ctorResult = CtorResult.initError msg
      ∨ (e.ctorResult = CtorResult.ok ∧ e.runResult = RunResult.sdlExc msg)) :
    (mainModel e).actions = Action.logError msg :: teardown e
    ∧ Action.releaseFonts ∈ (mainModel e).actions
    ∧ (mainModel e).result = ExitOutcome.exitCode EXIT_SUCCESS := by
  have hact : (mainModel e).actions = Action.logError msg :: teardown e ∧
      (mainModel e).result = ExitOutcome.exitCode EXIT_SUCCESS := by
    rcases h with hcc | ⟨hcc, hrr⟩
    · constructor <;> simp [mainModel, hsdl, hcc]
    · constructor <;> simp [mainModel, hsdl, hcc, hrr]
  refine ⟨hact.1, ?_, hact.2⟩
  rw [hact.1]
  simp [teardown]

/-- Claim C2, witness for the amended theorem at a concrete execution. -/
theorem sdlException_caught_amended_witness :
    (mainModel ⟨true, CtorResult.initError "boom", RunResult.stopped, true, true⟩).actions
        = Action.logError "boom"
          :: teardown ⟨true, CtorResult.initError "boom", RunResult.stopped, true, true⟩
    ∧ Action.releaseFonts
        ∈ (mainModel ⟨true, CtorResult.initError "boom", RunResult.stopped, true, true⟩).actions
    ∧ (mainModel ⟨true, CtorResult.initError "boom", RunResult.stopped, true, true⟩).result
        = ExitOutcome.exitCode EXIT_SUCCESS :=
  sdlException_caught_amended ⟨true, CtorResult.initError "boom", RunResult.stopped, true, true⟩
    "boom" rfl (Or.inl rfl)

/-- Claim C3, counterexample: `main` itself assigns the root widget a
geometry at construction, passing `Boxf(320, 240, 600, 440)` to the
`SdlWidget` constructor (src/main.cpp lines 29-35), so not every geometry
write comes from a parent layout pass or from the Application on resize. -/
theorem rootGeometry_constructorAssigned :
    ¬ (∀ w ∈ mainGeometryWrites,
        w.source = GeometrySource.parentLayout ∨ w.source = GeometrySource.appResize) := by
  intro h
  have := h ⟨"root_widget", GeometrySource.constructorArg, ⟨320, 240, 600, 440⟩⟩
    (by simp [mainGeometryWrites])
  simp at this

/-- Claim C3 as amended: the only geometry assignment in the bootstrap code
is the explicit initial box of the root widget, supplied by `main` at
construction; no other geometry write appears in src/main.cpp. -/
theorem geometryWrites_amended :
    ∀ w ∈ mainGeometryWrites,
      w.widget = "root_widget" ∧ w.source = GeometrySource.constructorArg
        ∧ w.box = ⟨320, 240, 600, 440⟩ := by
  intro w hw
  simp only [mainGeometryWrites, List.mem_singleton] at hw
  subst hw
  exact ⟨rfl, rfl, rfl⟩

/-- Claim C3, witness for the amended theorem at the concrete write. -/
theorem geometryWrites_amended_witness :
    (⟨"root_widget", GeometrySource.constructorArg, ⟨320, 240, 600, 440⟩⟩ :
        GeometryWrite).widget = "root_widget"
    ∧ (⟨"root_widget", GeometrySource.constructorArg, ⟨320, 240, 600, 440⟩⟩ :
        GeometryWrite).source = GeometrySource.constructorArg
    ∧ (⟨"root_widget", GeometrySource.constructorArg, ⟨320, 240, 600, 440⟩⟩ :
        GeometryWrite).box = ⟨320, 240, 600, 440⟩ :=
  geometryWrites_amended ⟨"root_widget", GeometrySource.constructorArg, ⟨320, 240, 600, 440⟩⟩
    (by simp [mainGeometryWrites])

/-- Claim C4: if backend surface creation fails during construction of the
application, the resulting `InitializationError` is an `SdlException`, so
`run()` is never entered, the exception is caught by the top level handler of
`main`, and the process exits 0. -/
theorem initError_skips_run (e : Env) (msg : String)
    (hsdl : e.sdlInitOk = true)
    (hc : e.ctorResult = CtorResult.initError msg) :
    (mainModel e).runEntered = false
    ∧ (mainModel e).result = ExitOutcome.exitCode EXIT_SUCCESS := by
  constructor <;> simp [mainModel, hsdl, hc]

/-- Claim C4, witness at a concrete execution. -/
theorem initError_skips_run_witness :
    (mainModel ⟨true, CtorResult.initError "no surface", RunResult.stopped, false, false⟩).runEntered
        = false
    ∧ (mainModel ⟨true, CtorResult.initError "no surface", RunResult.stopped, false, false⟩).result
        = ExitOutcome.exitCode EXIT_SUCCESS :=
  initError_skips_run ⟨true, CtorResult.initError "no surface", RunResult.stopped, false, false⟩
    "no surface" rfl rfl

/-- Claim C5: a horizontal linear layout with margin 10 and spacing 5 applied
to the container box (0,0,640,480) with two children of fixed main axis sizes
100 and 200 yields exactly the boxes (10,10,100,460) and (115,10,200,460), in
that order. -/
theorem linearLayout_scenario :
    arrange ⟨Direction.Horizontal, 10, 5⟩ ⟨0, 0, 640, 480⟩
        [SizeHint.fixed 100, SizeHint.fixed 200]
      = [⟨10, 10, 100, 460⟩, ⟨115, 10, 200, 460⟩] := by
  simp [arrange, extents, interior, placeMain, clamp0, countStretch, hintBase, hintExtent]
  norm_num

/-- Claim C7: `arrange` is total, returns the empty list for zero children,
and never produces a box with negative width or height — extents that would
go negative are clamped to zero. -/
theorem arrange_nonneg_total (l : LinearLayout) (c : Box) (hs : List SizeHint) :
    arrange l c [] = []
    ∧ ∀ b ∈ arrange l c hs, 0 ≤ b.w ∧ 0 ≤ b.h := by
  constructor
  · simp [arrange, extents, placeMain]
  · intro b hb
    have harr : arrange l c hs
        = placeMain l.direction l.spacing (interior l.margin c)
          (Box.mainStart l.direction (interior l.margin c)) (extents l c hs) := by
      cases h : l.direction <;> simp [arrange, Box.mainStart, h]
    rw [harr] at hb
    obtain ⟨hmain, -, hcross⟩ := placeMain_mem l.direction l.spacing (interior l.margin c)
      (extents l c hs) (Box.mainStart l.direction (interior l.margin c)) b hb
    have h1 : 0 ≤ Box.mainExtent l.direction b :=
      extents_nonneg l c hs _ hmain
    have h2 : 0 ≤ Box.crossExtent l.direction b := by
      rw [hcross]
      cases h : l.direction <;> simp [Box.crossExtent]
      · exact (interior_nonneg l.margin c).2
      · exact (interior_nonneg l.margin c).1
    cases h : l.direction <;>
      rw [h] at h1 h2 <;>
      simp [Box.mainExtent, Box.crossExtent] at h1 h2 <;>
      exact ⟨by assumption, by assumption⟩

/-- Claim C7, witness at the scenario inputs. -/
theorem arrange_nonneg_total_witness :
    0 ≤ (Box.mk 10 10 100 460).w ∧ 0 ≤ (Box.mk 10 10 100 460).h :=
  (arrange_nonneg_total ⟨Direction.Horizontal, 10, 5⟩ ⟨0, 0, 640, 480⟩
      [SizeHint.fixed 100, SizeHint.fixed 200]).2
    ⟨10, 10, 100, 460⟩
    (by
      rw [show arrange ⟨Direction.Horizontal, 10, 5⟩ ⟨0, 0, 640, 480⟩
            [SizeHint.fixed 100, SizeHint.fixed 200]
          = [⟨10, 10, 100, 460⟩, ⟨115, 10, 200, 460⟩] by
        simp [arrange, extents, interior, placeMain, clamp0, countStretch, hintBase,
          hintExtent]
        norm_num]
      simp)

/-- Claim C8: marking the widget at any path of the tree dirty marks it and
every ancestor on the path from the root (in particular the root itself), and
a completed layout-plus-render pass clears the dirty flag on every visited
widget. -/
theorem markDirty_upward_pass_clears (t : WidgetTree) (p q : List Nat)
    (hpre : ∃ r, q ++ r = p) (hvalid : (nodeAt t q).isSome = true) :
    (markDirty t p).dirty = true
    ∧ (∃ u, nodeAt (markDirty t p) q = some u ∧ u.dirty = true)
    ∧ ∀ s : WidgetTree, allClean (layoutRenderPass s) = true :=
  ⟨markDirty_root_dirty t p,
    nodeAt_markDirty_dirty q p t hpre hvalid,
    allClean_layoutRenderPass⟩

/-- Claim C8, witness on a concrete two node tree, marking the only child. -/
theorem markDirty_upward_pass_clears_witness :
    (markDirty (WidgetTree.node false [WidgetTree.node false []]) [0]).dirty = true
    ∧ (∃ u, nodeAt (markDirty (WidgetTree.node false [WidgetTree.node false []]) [0]) [0]
        = some u ∧ u.dirty = true)
    ∧ ∀ s : WidgetTree, allClean (layoutRenderPass s) = true :=
  markDirty_upward_pass_clears (WidgetTree.node false [WidgetTree.node false []]) [0] [0]
    ⟨[], rfl⟩ (by simp [nodeAt, nodeAtChildren])

/-- Bumping the reference count of a key no entry of the list carries leaves
the list unchanged. -/
theorem map_bump_of_fresh (k : FontKey) :
    ∀ l : List FontEntry, (∀ e ∈ l, e.key ≠ k) →
      (l.map fun e2 =>
        if e2.key = k then { e2 with refCount := e2.refCount + 1 } else e2) = l := by
  intro l
  induction l with
  | nil => intro _; simp
  | cons c cs ih =>
      intro h
      simp only [List.map_cons]
      rw [if_neg (h c (List.mem_cons_self c cs)), ih fun e he => h e (List.mem_cons_of_mem _ he)]

/-- Claim C9: from a state where the key is not cached, two `acquire` calls
with the same key return the same handle identity and leave the entry with
reference count 2; `releaseFonts` then drops every cached entry regardless of
the outstanding count, so a subsequent `acquire` with the same key issues a
new load against the backend. -/
theorem fontFactory_acquire_release (f0 : FontFactory) (k : FontKey)
    (hfresh : ∀ e ∈ f0.entries, e.key ≠ k) :
    ((f0.acquire k).2.acquire k).1 = (f0.acquire k).1
    ∧ ((f0.acquire k).2.acquire k).2.refCountOf k = some 2
    ∧ (((f0.acquire k).2.acquire k).2.releaseFonts).entries = []
    ∧ ((((f0.acquire k).2.acquire k).2.releaseFonts).acquire k).2.backendLoads
        = ((f0.acquire k).2.acquire k).2.backendLoads + 1 := by
  have h0 : f0.entries.find? (fun e => e.key = k) = none := by
    rw [List.find?_eq_none]
    intro x hx
    simp [hfresh x hx]
  have ha1 : f0.acquire k =
      (f0.nextHandle,
        { entries := f0.entries ++ [⟨k, f0.nextHandle, 1⟩],
          nextHandle := f0.nextHandle + 1,
          backendLoads := f0.backendLoads + 1 }) := by
    simp [FontFactory.acquire, h0]
  have hfind1 : (f0.entries ++ [(⟨k, f0.nextHandle, 1⟩ : FontEntry)]).find?
      (fun e => e.key = k) = some ⟨k, f0.nextHandle, 1⟩ := by
    rw [List.find?_append, h0]
    simp [List.find?]
  have hmap : ((f0.entries ++ [(⟨k, f0.nextHandle, 1⟩ : FontEntry)]).map fun e2 =>
      if e2.key = k then { e2 with refCount := e2.refCount + 1 } else e2)
      = f0.entries ++ [⟨k, f0.nextHandle, 2⟩] := by
    rw [List.map_append, map_bump_of_fresh k f0.entries hfresh]
    simp
  have ha2 : (f0.acquire k).2.acquire k =
      (f0.nextHandle,
        { entries := f0.entries ++ [⟨k, f0.nextHandle, 2⟩],
          nextHandle := f0.nextHandle + 1,
          backendLoads := f0.backendLoads + 1 }) := by
    rw [ha1]
    simp only [FontFactory.acquire, hfind1]
    simp [hmap]
  have hfind2 : (f0.entries ++ [(⟨k, f0.nextHandle, 2⟩ : FontEntry)]).find?
      (fun e => e.key = k) = some ⟨k, f0.nextHandle, 2⟩ := by
    rw [List.find?_append, h0]
    simp [List.find?]
  refine ⟨?_, ?_, ?_, ?_⟩
  · rw [ha2, ha1]
  · rw [ha2]
    simp [FontFactory.refCountOf, hfind2]
  · rw [ha2]
    simp [FontFactory.releaseFonts]
  · rw [ha2]
    simp [FontFactory.releaseFonts, FontFactory.acquire, List.find?]

/-- Claim C9, witness: the double acquire of ("Arial", 12) on an empty
factory, followed by the release-all call and a reloading acquire. -/
theorem fontFactory_acquire_release_witness :
    (((⟨[], 0, 0⟩ : FontFactory).acquire ⟨"Arial", 12⟩).2.acquire ⟨"Arial", 12⟩).1
        = ((⟨[], 0, 0⟩ : FontFactory).acquire ⟨"Arial", 12⟩).1
    ∧ ((((⟨[], 0, 0⟩ : FontFactory).acquire ⟨"Arial", 12⟩).2.acquire
          ⟨"Arial", 12⟩).2.refCountOf ⟨"Arial", 12⟩) = some 2
    ∧ (((((⟨[], 0, 0⟩ : FontFactory).acquire ⟨"Arial", 12⟩).2.acquire
          ⟨"Arial", 12⟩).2.releaseFonts).entries) = []
    ∧ (((((((⟨[], 0, 0⟩ : FontFactory).acquire ⟨"Arial", 12⟩).2.acquire
          ⟨"Arial", 12⟩).2.releaseFonts).acquire ⟨"Arial", 12⟩).2.backendLoads)
        = ((((⟨[], 0, 0⟩ : FontFactory).acquire ⟨"Arial", 12⟩).2.acquire
            ⟨"Arial", 12⟩).2.backendLoads) + 1) :=
  fontFactory_acquire_release ⟨[], 0, 0⟩ ⟨"Arial", 12⟩ (by simp)

/-- Claim C10: on every path through `main` that passes SDL initialization
and either returns from `run()` normally or catches an `SdlException`, the
performed actions are some log messages followed by the unconditional font
release and then the conditional library shutdown: `TTF_Quit` runs exactly
when `TTF_WasInit()` holds and `SDL_Quit` exactly when `SDL_WasInit(0u)`
holds, and both run after `releaseFonts`. -/
theorem teardown_order_conditional (e : Env)
    (hsdl : e.sdlInitOk = true)
    (hc : e.ctorResult ≠ CtorResult.otherExc)
    (hr : e.ctorResult = CtorResult.ok → e.runResult ≠ RunResult.otherExc) :
    ∃ logs : List Action,
      (∀ a ∈ logs, ∃ m, a = Action.logError m)
      ∧ (mainModel e).actions
          = logs ++ Action.releaseFonts ::
              ((if e.ttfWasInit then [Action.ttfQuit] else [])
                ++ (if e.sdlWasInit then [Action.sdlQuit] else []))
      ∧ (Action.ttfQuit ∈ (mainModel e).actions ↔ e.ttfWasInit = true)
      ∧ (Action.sdlQuit ∈ (mainModel e).actions ↔ e.sdlWasInit = true) := by
  rcases hcc : e.ctorResult with _ | m | _
  · rcases hrr : e.runResult with _ | m | _
    · refine ⟨[], ?_, ?_, ?_, ?_⟩
      · intro a ha; simp at ha
      · simp [mainModel, hsdl, hcc, hrr, teardown]
      · rcases htf : e.ttfWasInit <;> rcases hsf : e.sdlWasInit <;>
          simp [mainModel, hsdl, hcc, hrr, teardown, htf, hsf]
      · rcases htf : e.ttfWasInit <;> rcases hsf : e.sdlWasInit <;>
          simp [mainModel, hsdl, hcc, hrr, teardown, htf, hsf]
    · refine ⟨[Action.logError m], ?_, ?_, ?_, ?_⟩
      · intro a ha; simp at ha; exact ⟨m, ha⟩
      · simp [mainModel, hsdl, hcc, hrr, teardown]
      · rcases htf : e.ttfWasInit <;> rcases hsf : e.sdlWasInit <;>
          simp [mainModel, hsdl, hcc, hrr, teardown, htf, hsf]
      · rcases htf : e.ttfWasInit <;> rcases hsf : e.sdlWasInit <;>
          simp [mainModel, hsdl, hcc, hrr, teardown, htf, hsf]
    · exact absurd hrr (hr hcc)
  · refine ⟨[Action.logError m], ?_, ?_, ?_, ?_⟩
    · intro a ha; simp at ha; exact ⟨m, ha⟩
    · simp [mainModel, hsdl, hcc, teardown]
    · rcases htf : e.ttfWasInit <;> rcases hsf : e.sdlWasInit <;>
        simp [mainModel, hsdl, hcc, teardown, htf, hsf]
    · rcases htf : e.ttfWasInit <;> rcases hsf : e.sdlWasInit <;>
        simp [mainModel, hsdl, hcc, teardown, htf, hsf]
  · exact absurd hcc hc

/-- Claim C10, witness at a concrete execution with both libraries
initialized. -/
theorem teardown_order_conditional_witness :
    ∃ logs : List Action,
      (∀ a ∈ logs, ∃ m, a = Action.logError m)
      ∧ (mainModel ⟨true, CtorResult.ok, RunResult.stopped, true, true⟩).actions
          = logs ++ Action.releaseFonts ::
              ((if (⟨true, CtorResult.ok, RunResult.stopped, true, true⟩ : Env).ttfWasInit
                  then [Action.ttfQuit] else [])
                ++ (if (⟨true, CtorResult.ok, RunResult.stopped, true, true⟩ : Env).sdlWasInit
                  then [Action.sdlQuit] else []))
      ∧ (Action.ttfQuit
          ∈ (mainModel ⟨true, CtorResult.ok, RunResult.stopped, true, true⟩).actions
          ↔ (⟨true, CtorResult.ok, RunResult.stopped, true, true⟩ : Env).ttfWasInit = true)
      ∧ (Action.sdlQuit
          ∈ (mainModel ⟨true, CtorResult.ok, RunResult.stopped, true, true⟩).actions
          ↔ (⟨true, CtorResult.ok, RunResult.stopped, true, true⟩ : Env).sdlWasInit = true) :=
  teardown_order_conditional ⟨true, CtorResult.ok, RunResult.stopped, true, true⟩
    rfl (by simp) (fun _ => by simp)

/-- Claim C6, counterexample: a single fixed child of main axis size 1000 in
the container (0,0,640,480) with margin 10 receives the box (10,10,1000,460),
which reaches past the right edge of the interior (x from 10 to 630), so the
returned boxes are not always contained in the interior of the container. -/
theorem arrange_containment_fails :
    arrange ⟨Direction.Horizontal, 10, 5⟩ ⟨0, 0, 640, 480⟩ [SizeHint.fixed 1000]
      = [⟨10, 10, 1000, 460⟩]
    ∧ ¬ ((10 : Rat) + 1000 ≤ (interior 10 ⟨0, 0, 640, 480⟩).x
          + (interior 10 ⟨0, 0, 640, 480⟩).w) := by
  constructor
  · simp [arrange, extents, interior, placeMain, clamp0, countStretch, hintBase, hintExtent]
    norm_num
  · simp [interior, clamp0]
    norm_num

/-- Claim C6 as amended: provided the spacing is nonnegative and the total
main axis space granted to the children (their extents plus the inter child
spacing) fits in the interior of the container, `arrange` returns one box per
child such that consecutive boxes are separated by exactly the spacing, the
boxes are pairwise non-overlapping along the main axis, and every box lies in
the interior left after reserving the margin, spanning its full cross axis. -/
theorem arrange_separation_containment (l : LinearLayout) (c : Box) (hs : List SizeHint)
    (hsp : 0 ≤ l.spacing)
    (hfit : (extents l c hs).sum + l.spacing * ((hs.length - 1 : Nat) : Rat)
      ≤ Box.mainExtent l.direction (interior l.margin c)) :
    (arrange l c hs).length = hs.length
    ∧ (∀ i : Nat, i + 1 < (arrange l c hs).length →
        Box.mainStart l.direction ((arrange l c hs).getD (i + 1) ⟨0, 0, 0, 0⟩)
          = Box.mainStart l.direction ((arrange l c hs).getD i ⟨0, 0, 0, 0⟩)
            + Box.mainExtent l.direction ((arrange l c hs).getD i ⟨0, 0, 0, 0⟩)
            + l.spacing)
    ∧ (∀ i j : Nat, i < j → j < (arrange l c hs).length →
        Box.mainStart l.direction ((arrange l c hs).getD i ⟨0, 0, 0, 0⟩)
          + Box.mainExtent l.direction ((arrange l c hs).getD i ⟨0, 0, 0, 0⟩)
          ≤ Box.mainStart l.direction ((arrange l c hs).getD j ⟨0, 0, 0, 0⟩))
    ∧ (∀ b ∈ arrange l c hs,
        Box.mainStart l.direction (interior l.margin c) ≤ Box.mainStart l.direction b
        ∧ Box.mainStart l.direction b + Box.mainExtent l.direction b
            ≤ Box.mainStart l.direction (interior l.margin c)
              + Box.mainExtent l.direction (interior l.margin c)
        ∧ Box.crossStart l.direction b = Box.crossStart l.direction (interior l.margin c)
        ∧ Box.crossExtent l.direction b = Box.crossExtent l.direction (interior l.margin c)) := by
  have harr := arrange_eq l c hs
  have hnn : ∀ v ∈ extents l c hs, 0 ≤ v := extents_nonneg l c hs
  have hlenvs : (extents l c hs).length = hs.length := extents_length l c hs
  have hfit2 : (extents l c hs).sum
      + l.spacing * (((extents l c hs).length - 1 : Nat) : Rat)
      ≤ Box.mainExtent l.direction (interior l.margin c) := by
    rw [hlenvs]
    exact hfit
  have hlen : (arrange l c hs).length = hs.length := by
    rw [harr, placeMain_length, hlenvs]
  refine ⟨hlen, ?_, ?_, ?_⟩
  · -- consecutive boxes are separated by exactly the spacing
    intro i hi1
    have hi1v : i + 1 < (extents l c hs).length := by
      rw [hlenvs]
      rw [hlen] at hi1
      exact hi1
    have hiv : i < (extents l c hs).length := Nat.lt_of_succ_lt hi1v
    obtain ⟨s1, e1⟩ := placeMain_getD l.direction l.spacing (interior l.margin c)
      (extents l c hs) (Box.mainStart l.direction (interior l.margin c)) i hiv
    obtain ⟨s2, -⟩ := placeMain_getD l.direction l.spacing (interior l.margin c)
      (extents l c hs) (Box.mainStart l.direction (interior l.margin c)) (i + 1) hi1v
    rw [harr, s1, s2, e1]
    have hsum : ((extents l c hs).take (i + 1)).sum
        = ((extents l c hs).take i).sum + (extents l c hs)[i] :=
      List.sum_take_succ _ i hiv
    have hgd : (extents l c hs).getD i 0 = (extents l c hs)[i] :=
      List.getD_eq_getElem _ _ hiv
    rw [hsum, hgd]
    push_cast
    ring
  · -- pairwise non-overlap along the main axis
    intro i j hij hj
    have hjv : j < (extents l c hs).length := by
      rw [hlenvs]
      rw [hlen] at hj
      exact hj
    have hiv : i < (extents l c hs).length := Nat.lt_trans hij hjv
    obtain ⟨s1, e1⟩ := placeMain_getD l.direction l.spacing (interior l.margin c)
      (extents l c hs) (Box.mainStart l.direction (interior l.margin c)) i hiv
    obtain ⟨s2, -⟩ := placeMain_getD l.direction l.spacing (interior l.margin c)
      (extents l c hs) (Box.mainStart l.direction (interior l.margin c)) j hjv
    rw [harr, s1, s2, e1]
    have hgd : (extents l c hs).getD i 0 = (extents l c hs)[i] :=
      List.getD_eq_getElem _ _ hiv
    have hsum : ((extents l c hs).take (i + 1)).sum
        = ((extents l c hs).take i).sum + (extents l c hs)[i] :=
      List.sum_take_succ _ i hiv
    have hmono : ((extents l c hs).take (i + 1)).sum ≤ ((extents l c hs).take j).sum :=
      sum_take_mono hnn hij
    have hsmono : l.spacing * (i : Rat) ≤ l.spacing * (j : Rat) := by
      apply mul_le_mul_of_nonneg_left _ hsp
      exact_mod_cast hij.le
    rw [hgd]
    linarith [hsum, hmono, hsmono]
  · -- containment in the interior
    intro b hb
    rw [harr] at hb
    obtain ⟨n, hget⟩ := List.mem_iff_get.mp hb
    obtain ⟨i, hi⟩ := n
    have hnv : i < (extents l c hs).length := by
      have h2 := hi
      rwa [placeMain_length] at h2
    obtain ⟨s1, e1⟩ := placeMain_get l.direction l.spacing (interior l.margin c)
      (extents l c hs) (Box.mainStart l.direction (interior l.margin c)) i hnv
    rw [hget] at s1 e1
    have htk : ∀ x ∈ (extents l c hs).take i, 0 ≤ x := fun x hx =>
      hnn x ((List.take_sublist _ _).mem hx)
    have hsum0 : 0 ≤ ((extents l c hs).take i).sum := List.sum_nonneg htk
    have hsp0 : 0 ≤ l.spacing * (i : Rat) :=
      mul_nonneg hsp (by exact_mod_cast Nat.zero_le i)
    refine ⟨?_, ?_, ?_⟩
    · rw [s1]
      linarith
    · have hsum : ((extents l c hs).take (i + 1)).sum
          = ((extents l c hs).take i).sum + (extents l c hs)[i] :=
        List.sum_take_succ _ i hnv
      have hget2 : (extents l c hs).get ⟨i, hnv⟩ = (extents l c hs)[i] :=
        List.get_eq_getElem _ _
      have hmono : ((extents l c hs).take (i + 1)).sum ≤ (extents l c hs).sum := by
        have h3 := sum_take_mono hnn (Nat.succ_le_of_lt hnv)
        rwa [List.take_length] at h3
      have hsmono : l.spacing * (i : Rat)
          ≤ l.spacing * (((extents l c hs).length - 1 : Nat) : Rat) := by
        apply mul_le_mul_of_nonneg_left _ hsp
        have h4 : i ≤ (extents l c hs).length - 1 := by omega
        exact_mod_cast h4
      rw [s1, e1, hget2]
      linarith [hfit2]
    · obtain ⟨-, hcs, hce⟩ := placeMain_mem l.direction l.spacing (interior l.margin c)
        (extents l c hs) (Box.mainStart l.direction (interior l.margin c)) b hb
      exact ⟨hcs, hce⟩

/-- Claim C6, witness for the amended theorem at the scenario inputs. -/
theorem arrange_separation_containment_witness :
    (arrange ⟨Direction.Horizontal, 10, 5⟩ ⟨0, 0, 640, 480⟩
        [SizeHint.fixed 100, SizeHint.fixed 200]).length
      = ([SizeHint.fixed 100, SizeHint.fixed 200] : List SizeHint).length :=
  (arrange_separation_containment ⟨Direction.Horizontal, 10, 5⟩ ⟨0, 0, 640, 480⟩
      [SizeHint.fixed 100, SizeHint.fixed 200] (by norm_num)
      (by
        simp [extents, interior, Box.mainExtent, clamp0, countStretch, hintBase, hintExtent]
        norm_num)).1

end Sog
